import Mathlib

/-!
Verification of the arithmetic-expression lexer/parser core
(`src/main.rs`, `src/syntax/lexer.rs`, `src/syntax/ast/mod.rs`).

Shallow embedding conventions:
* Rust `&str` / `Chars` iterators become `String` / `List Char`.
* `f64` is idealized as `Rat` (the literals and arithmetic the claims touch
  are exact); Rust float division by zero yields `inf`, `Rat` yields `0` —
  no claim divides by zero.
* `char::is_numeric` / `char::is_whitespace` are modelled on the ASCII
  fragment by `Char.isDigit` / `Char.isWhitespace`; every input appearing
  in a theorem below is ASCII.
* `&mut self` methods become state-passing functions returning
  `result × new state`; a method that returns early with `Err` leaves the
  state exactly as Rust leaves the borrowed receiver.
* the two `while`/`loop`s are written with an explicit iteration bound
  (`fuel`) plus a proof that the bound is never reached, so that all
  definitions compute by kernel reduction.
-/

deriving instance DecidableEq for Except

/-- `CharIndex` from `lexer.rs`: zero-based line/column position. -/
structure CharIndex where
  line : Nat
  column : Nat
  deriving DecidableEq, Repr, Inhabited

/-- `CharIndex::advance_num`: move `n` columns right. -/
def CharIndex.advance_num (p : CharIndex) (n : Nat) : CharIndex :=
  { p with column := p.column + n }

/-- `CharIndex::advance`: newline starts the next line, otherwise one column right. -/
def CharIndex.advance (p : CharIndex) (c : Char) : CharIndex :=
  if c = '\n' then { line := p.line + 1, column := 0 }
  else { p with column := p.column + 1 }

/-- `Span` from `ast/mod.rs` (Rust field `end` is a Lean keyword, hence `end_`). -/
structure Span where
  start : CharIndex
  end_ : CharIndex
  deriving DecidableEq, Repr

/-- `Span::new`. -/
def Span.new (start end_ : CharIndex) : Span := ⟨start, end_⟩

/-- `WhitespaceMode` from `lexer.rs`. -/
inductive WhitespaceMode where
  | Skip
  | Allow
  deriving DecidableEq, Repr

/-- `IndexedCharIter` from `lexer.rs`: a character source tagging each
character with a `CharIndex`. -/
structure IndexedCharIter where
  chars : List Char
  index : CharIndex
  whitespace : WhitespaceMode
  deriving DecidableEq, Repr

/-- The `while next.is_whitespace()` loop inside `IndexedCharIter::next`:
draw characters until a non-whitespace one appears. -/
def nextNonWs : List Char → Option (Char × List Char)
  | [] => none
  | c :: rest => if c.isWhitespace then nextNonWs rest else some (c, rest)

/-- `IndexedCharIter::next`: yield the next character (skipping whitespace in
`Skip` mode) tagged with the CURRENT index, then advance the index by the
yielded character only. -/
def IndexedCharIter.next (it : IndexedCharIter) :
    Option ((CharIndex × Char) × IndexedCharIter) :=
  let step : Option (Char × List Char) :=
    match it.whitespace with
    | .Skip => nextNonWs it.chars
    | .Allow =>
      match it.chars with
      | [] => none
      | c :: rest => some (c, rest)
  match step with
  | none => none
  | some (c, rest) =>
    some ((it.index, c), { it with chars := rest, index := it.index.advance c })

/-- `IndexedCharIter::new`: starts at the origin, in whitespace-skipping mode. -/
def IndexedCharIter.new (cs : List Char) : IndexedCharIter :=
  { chars := cs, index := default, whitespace := .Skip }

/-- The closed set of `CharMatcher` implementations from `lexer.rs::matchers`. -/
inductive Matcher where
  | AnyChar
  | NumericChar
  | SpecificChar (c : Char)
  deriving DecidableEq, Repr

/-- `CharMatcher::is_match` for each matcher variant, with the messages the
source formats. -/
def Matcher.is_match : Matcher → Char → Except String Unit
  | .AnyChar, _ => .ok ()
  | .NumericChar, c =>
    if c.isDigit then .ok () else .error (s!"got non-numeric character {c}")
  | .SpecificChar e, c =>
    if c = e then .ok () else .error (s!"got {c} but expected {e}")

/-- `PeekState` from `lexer.rs`. -/
inductive PeekState where
  | Present (i : CharIndex) (c : Char)
  | Eof (i : CharIndex)
  deriving DecidableEq, Repr

/-- `LexerType` from `lexer.rs`: unbounded, or bounded by a matcher. -/
inductive LexerType where
  | UntilEof
  | UntilEnd (m : Matcher)
  deriving DecidableEq, Repr

/-- `LexerErrorType` from `lexer.rs`. -/
inductive LexerErrorType where
  | IncorrectChar (got : Option Char) (expected : String)
  | EOF
  deriving DecidableEq, Repr

/-- `LexerError` from `lexer.rs`. -/
structure LexerError where
  err : LexerErrorType
  position : CharIndex
  deriving DecidableEq, Repr

/-- `LexerError::eof`. -/
def LexerError.eof (position : CharIndex) : LexerError :=
  { err := .EOF, position := position }

/-- `LexerError::incorrect_char`. -/
def LexerError.incorrect_char (got : Option Char) (position : CharIndex)
    (expected : String) : LexerError :=
  { err := .IncorrectChar got expected, position := position }

/-- `LexerStream` from `lexer.rs` (Rust fields `peek`/`end` renamed to
`peekSt`/`end_`: `peek` collides with the method, `end` is a keyword). -/
structure LexerStream where
  chars : IndexedCharIter
  peekSt : PeekState
  ty : LexerType
  start : CharIndex
  end_ : CharIndex
  deriving DecidableEq, Repr

/-- `LexerStream::new`: draw the first character into the lookahead, then
record `start`/`end` from the (already advanced) iterator index. -/
def LexerStream.new (chars : IndexedCharIter) : LexerStream :=
  match chars.next with
  | some ((idx, c), chars') =>
    { chars := chars', peekSt := .Present idx c, ty := .UntilEof,
      start := chars'.index, end_ := chars'.index }
  | none =>
    { chars := chars, peekSt := .Eof chars.index, ty := .UntilEof,
      start := chars.index, end_ := chars.index }

/-- `LexerStream::span`. -/
def LexerStream.span (s : LexerStream) : Span :=
  { start := s.start, end_ := s.end_ }

/-- `LexerStream::peek` (also folding in `PeekState::err`, whose `Present`
arm is unreachable from `peek`). -/
def LexerStream.peek (s : LexerStream) : Except LexerError (CharIndex × Char) :=
  match s.peekSt with
  | .Present idx c => .ok (idx, c)
  | .Eof i => .error (LexerError.eof i)

/-- `LexerStream::advance`: check the bound, check the matcher, then consume
the lookahead and refill it from the source. Failure returns the stream
unchanged, exactly as the Rust early returns leave `self`. -/
def LexerStream.advance (s : LexerStream) (m : Matcher) :
    Except LexerError Char × LexerStream :=
  match s.peek with
  | .error e => (.error e, s)
  | .ok (idx, c) =>
    let boundHit : Bool :=
      match s.ty with
      | .UntilEnd comp =>
        match comp.is_match c with
        | .ok _ => true
        | .error _ => false
      | .UntilEof => false
    if boundHit then (.error (LexerError.eof idx), s)
    else
      match m.is_match c with
      | .error str => (.error (LexerError.incorrect_char (some c) idx str), s)
      | .ok _ =>
        match s.chars.next with
        | some ((i2, c2), it') =>
          (.ok c, { s with peekSt := .Present i2 c2, chars := it', end_ := it'.index })
        | none =>
          (.ok c, { s with peekSt := .Eof (idx.advance_num 1), end_ := s.chars.index })

/-- `LexerStream::eat`: advance through a `SpecificChar` matcher. -/
def LexerStream.eat (s : LexerStream) (c : Char) :
    Except LexerError Char × LexerStream :=
  s.advance (.SpecificChar c)

/-- Verification measure (not in the source): an upper bound on the number of
characters the stream can still produce — the unread characters of the
source plus the lookahead, if present. -/
def LexerStream.rem (s : LexerStream) : Nat :=
  s.chars.chars.length +
    (match s.peekSt with
     | .Present _ _ => 1
     | .Eof _ => 0)

theorem nextNonWs_length {l : List Char} {c : Char} {rest : List Char}
    (h : nextNonWs l = some (c, rest)) : rest.length < l.length := by
  induction l with
  | nil => simp [nextNonWs] at h
  | cons a l ih =>
    by_cases hw : a.isWhitespace
    · simp only [nextNonWs, hw, if_pos] at h
      exact Nat.lt_trans (ih h) (Nat.lt_succ_self _)
    · simp only [nextNonWs, hw, if_neg, Option.some.injEq, Prod.mk.injEq] at h
      obtain ⟨-, rfl⟩ := h
      exact Nat.lt_succ_self _

theorem IndexedCharIter.next_length {it : IndexedCharIter} {x : CharIndex × Char}
    {it' : IndexedCharIter} (h : it.next = some (x, it')) :
    it'.chars.length < it.chars.length := by
  unfold IndexedCharIter.next at h
  cases hw : it.whitespace with
  | Skip =>
    rw [hw] at h
    simp only at h
    cases hn : nextNonWs it.chars with
    | none => rw [hn] at h; simp at h
    | some p =>
      obtain ⟨c, rest⟩ := p
      rw [hn] at h
      simp only [Option.some.injEq, Prod.mk.injEq] at h
      obtain ⟨-, rfl⟩ := h
      exact nextNonWs_length hn
  | Allow =>
    rw [hw] at h
    simp only at h
    cases hc : it.chars with
    | nil => rw [hc] at h; simp at h
    | cons c rest =>
      rw [hc] at h
      simp only [Option.some.injEq, Prod.mk.injEq] at h
      obtain ⟨-, rfl⟩ := h
      simp [hc]

theorem LexerStream.advance_ok_rem {s : LexerStream} {m : Matcher} {c : Char}
    {s' : LexerStream} (h : s.advance m = (.ok c, s')) : s'.rem < s.rem := by
  cases hp : s.peekSt with
  | Eof i => simp [LexerStream.advance, LexerStream.peek, hp] at h
  | Present idx ch =>
    simp only [LexerStream.advance, LexerStream.peek, hp] at h
    split at h
    · simp at h
    · split at h
      · simp at h
      · split at h
        · rename_i i2 c2 it' hn
          simp only [Prod.mk.injEq, Except.ok.injEq] at h
          obtain ⟨-, rfl⟩ := h
          simp only [LexerStream.rem, hp]
          have := IndexedCharIter.next_length hn
          omega
        · simp only [Prod.mk.injEq, Except.ok.injEq] at h
          obtain ⟨-, rfl⟩ := h
          simp only [LexerStream.rem, hp]
          omega

theorem LexerStream.advance_error_eq {s : LexerStream} {m : Matcher} {e : LexerError}
    {s' : LexerStream} (h : s.advance m = (.error e, s')) : s' = s := by
  cases hp : s.peekSt with
  | Eof i =>
    simp only [LexerStream.advance, LexerStream.peek, hp, Prod.mk.injEq] at h
    exact h.2.symm
  | Present idx ch =>
    simp only [LexerStream.advance, LexerStream.peek, hp] at h
    split at h
    · simp only [Prod.mk.injEq] at h
      exact h.2.symm
    · split at h
      · simp only [Prod.mk.injEq] at h
        exact h.2.symm
      · split at h
        · simp at h
        · simp at h

/-- The `while ... is_err` loop inside `LexerStream::eat_until`, with an
explicit iteration bound (`none` = bound exhausted; `eatUntilLoopF_isSome`
shows the bound used by `eat_until` is never exhausted): repeatedly
`advance(AnyChar)` on the parent, propagating errors, until the consumed
character matches `m`. -/
def eatUntilLoopF (m : Matcher) : Nat → LexerStream →
    Option (Except LexerError Unit × LexerStream)
  | 0, _ => none
  | n+1, s =>
    match s.advance .AnyChar with
    | (.error e, s') => some (.error e, s')
    | (.ok c, s') =>
      match m.is_match c with
      | .ok _ => some (.ok (), s')
      | .error _ => eatUntilLoopF m n s'

theorem eatUntilLoopF_isSome (m : Matcher) :
    ∀ (n : Nat) (s : LexerStream), s.rem < n → (eatUntilLoopF m n s).isSome := by
  intro n
  induction n with
  | zero => intro s h; omega
  | succ n ih =>
    intro s h
    simp only [eatUntilLoopF]
    cases ha : s.advance .AnyChar with
    | mk r s' =>
      cases r with
      | error e => simp
      | ok c =>
        cases hm : m.is_match c with
        | ok u => simp [hm]
        | error msg =>
          simp only [hm]
          exact ih s' (by have := LexerStream.advance_ok_rem ha; omega)

/-- `LexerStream::eat_until`: clone the current state into a new cursor
bounded by `m`, then run the consumption loop on the parent. -/
def LexerStream.eat_until (s : LexerStream) (m : Matcher) :
    Except LexerError LexerStream × LexerStream :=
  let new_lexer : LexerStream := { s with ty := .UntilEnd m }
  match h : eatUntilLoopF m (s.rem + 1) s with
  | some (.ok _, s') => (.ok new_lexer, s')
  | some (.error e, s') => (.error e, s')
  | none =>
    absurd (eatUntilLoopF_isSome m (s.rem + 1) s (Nat.lt_succ_self _))
      (by rw [h]; simp)

/-- `Node<T>` from `ast/mod.rs`: a span-tagged value (the Rust `Box`
indirection is immaterial in a value semantics). -/
structure Node (α : Type) where
  value : α
  span : Span
  deriving DecidableEq, Repr

/-- `Node::new`. -/
def Node.new (value : α) (span : Span) : Node α := ⟨value, span⟩

/-- `Node::wrap`: transform the value, keep the span. -/
def Node.wrap (n : Node α) (f : α → β) : Node β := Node.new (f n.value) n.span

/-- `ParseErrorType` from `ast/mod.rs` (constructor `LexerError` mirrors the
`#[from]` wrapping variant). -/
inductive ParseErrorType where
  | LexerError (e : LexerError)
  | EmptyNumberLiteral
  | ExtraDotInNumberLiteral
  deriving DecidableEq, Repr

/-- `ParseError` from `ast/mod.rs`. -/
structure ParseError where
  span : Span
  ty : ParseErrorType
  deriving DecidableEq, Repr

/-- `impl From<LexerError> for ParseError`: wrap the lexer error, spanning
exactly its position. -/
def ParseError.fromLexer (e : LexerError) : ParseError :=
  { span := Span.new e.position e.position, ty := .LexerError e }

/-- `Parser` from `ast/mod.rs`: the driver owns exactly one stream. -/
structure Parser where
  stream : LexerStream
  deriving DecidableEq, Repr

/-- `Parser::new`. -/
def Parser.new (s : String) : Parser :=
  ⟨LexerStream.new (IndexedCharIter.new s.toList)⟩

/-- `Parser::err`: a parse error tagged with the current cursor's span. -/
def Parser.err (st : Parser) (e : ParseErrorType) : ParseError :=
  { span := st.stream.span, ty := e }

/-- Outcome of running a grammar rule from a parser state.
`ok`/`err` carry the driver state the rule left behind (Rust mutates the
borrowed `&mut Parser`); `panic` models a Rust panic (an `unwrap` failure);
`outOfFuel` is the artificial bound of the fueled grammar functions, shown
unreachable for sufficient fuel. -/
inductive PRes (α : Type) where
  | ok (v : α) (s : Parser)
  | err (e : ParseError) (s : Parser)
  | panic
  | outOfFuel
  deriving DecidableEq, Repr

/-- Sequencing that models Rust `?` on `Result<_, ParseError>`:
errors, panics and fuel exhaustion propagate. -/
def PRes.bind : PRes α → (α → Parser → PRes β) → PRes β
  | .ok v s, f => f v s
  | .err e s, _ => .err e s
  | .panic, _ => .panic
  | .outOfFuel, _ => .outOfFuel

/-- Lift a lexer-level operation into the parser: models `?` applied to a
`LexerResult` inside a grammar rule, converting the error through
`From<LexerError> for ParseError`. -/
def liftLex (r : Except LexerError α × LexerStream) : PRes α :=
  match r with
  | (.ok v, l) => .ok v ⟨l⟩
  | (.error e, l) => .err (ParseError.fromLexer e) ⟨l⟩

/-- `Parser::parse`: snapshot the stream, run the rule; on success pass the
result through, on failure restore the snapshot and propagate the error. -/
def Parser.parse (f : Parser → PRes α) (st : Parser) : PRes α :=
  match f st with
  | .ok v s' => .ok v s'
  | .err e _ => .err e st
  | .panic => .panic
  | .outOfFuel => .outOfFuel

/-- `Parser::parse_with_lexer`: swap in `lexer`, run the rule against it,
then restore the previously active stream regardless of the outcome. -/
def Parser.parse_with_lexer (f : Parser → PRes α) (lexer : LexerStream)
    (st : Parser) : PRes α :=
  match Parser.parse f ⟨lexer⟩ with
  | .ok v _ => .ok v ⟨st.stream⟩
  | .err e _ => .err e ⟨st.stream⟩
  | .panic => .panic
  | .outOfFuel => .outOfFuel

/-- Modelled from the spec: `Parser::node` is called by `Factor::parse` and
`Term::parse` but its definition is not among the given sources; per the
spec (§4.3, §3) every grammar rule produces a node tagged with the span the
driver's current cursor accumulated, so it wraps the value with
`self.lexer().span()`. -/
def Parser.node (st : Parser) (v : α) : Node α := Node.new v st.stream.span

/-- `Number(f64)` from `main.rs` (`f64` idealized as `Rat`). -/
structure Number where
  val : Rat
  deriving DecidableEq, Repr

/-- Value of a list of decimal digits, most significant first. -/
def natOfDigits (l : List Char) : Nat :=
  l.foldl (fun a c => a * 10 + (c.toNat - '0'.toNat)) 0

/-- Models `str::parse::<f64>()` on the digit/dot strings that
`Number::parse` accumulates: it succeeds iff the string has at least one
decimal digit, at most one `.`, and nothing but digits and dots, yielding
the exact decimal value; `none` is Rust's `Err` (on which `Number::parse`'s
`unwrap` panics). -/
def parseF64 (s : List Char) : Option Rat :=
  if s.any Char.isDigit ∧ s.count '.' ≤ 1 ∧ s.all (fun c => c.isDigit || c = '.') then
    let ip := s.takeWhile (fun c => c ≠ '.')
    let fp := (s.dropWhile (fun c => c ≠ '.')).drop 1
    some ((natOfDigits ip : Rat) + (natOfDigits fp : Rat) / (10 ^ fp.length : Rat))
  else none

/-- The dot-handling prefix of one iteration of the `loop` inside
`Number::parse`: if the lookahead is `.`, consume it the first time and
fail with `ExtraDotInNumberLiteral` the second. -/
def numberDotStep (st : Parser) (chars : List Char) (seen_dot : Bool) :
    PRes (List Char × Bool) :=
  match st.stream.peek with
  | .ok (_, '.') =>
    if seen_dot then .err (st.err .ExtraDotInNumberLiteral) st
    else (liftLex (st.stream.eat '.')).bind fun _ st₁ => .ok (chars ++ ['.'], true) st₁
  | _ => .ok (chars, seen_dot) st

/-- The accumulation `loop` inside `Number::parse`, with an explicit
iteration bound (`numberLoopF_isSome` shows the bound used by `numberLoop`
is never exhausted). One iteration: the dot-handling step, then an attempt
to consume a numeric character, breaking the loop when that fails. -/
def numberLoopF : Nat → Parser → List Char → Bool → Option (PRes (List Char))
  | 0, _, _, _ => none
  | n+1, st, chars, seen_dot =>
    match numberDotStep st chars seen_dot with
    | .ok (chars₁, seen₁) st₁ =>
      match st₁.stream.advance .NumericChar with
      | (.ok c, l₂) => numberLoopF n ⟨l₂⟩ (chars₁ ++ [c]) seen₁
      | (.error _, l₂) => some (.ok chars₁ ⟨l₂⟩)
    | .err e s => some (.err e s)
    | .panic => some .panic
    | .outOfFuel => some .outOfFuel

theorem numberDotStep_ok_rem {st : Parser} {chars : List Char} {seen_dot : Bool}
    {chars₁ : List Char} {seen₁ : Bool} {st₁ : Parser}
    (hs : numberDotStep st chars seen_dot = .ok (chars₁, seen₁) st₁) :
    st₁.stream.rem ≤ st.stream.rem := by
  unfold numberDotStep at hs
  split at hs
  · split at hs
    · simp at hs
    · cases he : st.stream.eat '.' with
      | mk r l =>
        cases r with
        | ok c =>
          simp only [he, liftLex, PRes.bind, PRes.ok.injEq] at hs
          obtain ⟨-, rfl⟩ := hs
          exact Nat.le_of_lt (LexerStream.advance_ok_rem he)
        | error e => simp [he, liftLex, PRes.bind] at hs
  · simp only [PRes.ok.injEq] at hs
    obtain ⟨-, rfl⟩ := hs
    exact Nat.le_refl _

theorem numberLoopF_isSome :
    ∀ (n : Nat) (st : Parser) (chars : List Char) (seen_dot : Bool),
      st.stream.rem < n → (numberLoopF n st chars seen_dot).isSome := by
  intro n
  induction n with
  | zero => intro st chars seen_dot h; omega
  | succ n ih =>
    intro st chars seen_dot h
    simp only [numberLoopF]
    split
    · rename_i chars₁ seen₁ st₁ hs
      cases ha : st₁.stream.advance .NumericChar with
      | mk r l₂ =>
        cases r with
        | ok c =>
          simp only
          refine ih _ _ _ ?_
          show l₂.rem < n
          have h1 := LexerStream.advance_ok_rem ha
          have h2 := numberDotStep_ok_rem hs
          omega
        | error e => simp
    · simp
    · simp
    · simp

/-- The `loop` of `Number::parse`, run with an iteration bound it never
exhausts. -/
def numberLoop (st : Parser) (chars : List Char) (seen_dot : Bool) : PRes (List Char) :=
  match h : numberLoopF (st.stream.rem + 1) st chars seen_dot with
  | some r => r
  | none =>
    absurd (numberLoopF_isSome (st.stream.rem + 1) st chars seen_dot (Nat.lt_succ_self _))
      (by rw [h]; simp)

/-- `Number::parse` from `main.rs`: optional leading `-`, then the digit
loop; `EmptyNumberLiteral` when nothing was accumulated; otherwise the
accumulated string is converted with `parse::<f64>().unwrap()` — the
`unwrap` of a failed conversion is the `panic` outcome. -/
def Number.parse (st : Parser) : PRes (Node Number) :=
  (match st.stream.peek with
   | .ok (_, '-') => (liftLex (st.stream.eat '-')).bind fun _ st₁ => .ok true st₁
   | _ => .ok false st).bind fun negate st₁ =>
  (numberLoop st₁ [] false).bind fun chars st₂ =>
  if chars.isEmpty then .err (st₂.err .EmptyNumberLiteral) st₂
  else
    match parseF64 chars with
    | none => .panic
    | some v => .ok (Node.new ⟨if negate then -v else v⟩ st₂.stream.span) st₂

mutual
/-- The grammar value `Factor` from `main.rs`. -/
inductive Factor : Type where
  | Val : Number → Factor
  | Parenthesis : Node Term → Factor
  | Mul : Node Factor → Node Factor → Factor
  | Div : Node Factor → Node Factor → Factor
/-- The grammar value `Term` from `main.rs`. -/
inductive Term : Type where
  | Val : Factor → Term
  | Add : Node Term → Node Term → Term
  | Sub : Node Term → Node Term → Term
end

mutual
/-- `Factor::evaluate` from `main.rs`: structural fold applying the numeric
operators. -/
def Factor.evaluate : Factor → Rat
  | .Parenthesis v => Term.evaluate v.value
  | .Val v => v.val
  | .Mul a b => Factor.evaluate a.value * Factor.evaluate b.value
  | .Div a b => Factor.evaluate a.value / Factor.evaluate b.value
/-- `Term::evaluate` from `main.rs`. -/
def Term.evaluate : Term → Rat
  | .Val v => Factor.evaluate v
  | .Add a b => Term.evaluate a.value + Term.evaluate b.value
  | .Sub a b => Term.evaluate a.value - Term.evaluate b.value
end

/-- The `let num = if ... else ...` initializer of `Factor::parse`: a
parenthesized `Term` (consume `(`, extract the bounded sub-cursor with
`eat_until`, parse it as a `Term` through `parse_with_lexer`) or a
`Number`. `termRec` stands for the nested `Term` rule invocation. -/
def Factor.parsePrimary (termRec : Parser → PRes (Node Term)) (st : Parser) :
    PRes (Node Factor) :=
  match st.stream.peek with
  | .ok (_, '(') =>
    (liftLex (st.stream.eat '(')).bind fun _ st₁ =>
    (liftLex (st₁.stream.eat_until (.SpecificChar ')'))).bind fun in_parens st₂ =>
    (Parser.parse_with_lexer termRec in_parens st₂).bind fun t st₃ =>
    .ok (Node.new (Factor.Parenthesis t) st₃.stream.span) st₃
  | _ =>
    (Parser.parse Number.parse st).bind fun num st₁ =>
    .ok (num.wrap Factor.Val) st₁

/-- The trailing `match state.lexer().peek()` of `Factor::parse`: an
optional `*`/`/` operator followed by a recursive right `Factor` operand
(`factorRec` stands for the recursive `state.parse::<Factor>()`). -/
def Factor.parseOps (factorRec : Parser → PRes (Node Factor))
    (num : Node Factor) (st₁ : Parser) : PRes (Node Factor) :=
  match st₁.stream.peek with
  | .ok (_, '*') =>
    (liftLex (st₁.stream.eat '*')).bind fun _ st₂ =>
    (Parser.parse factorRec st₂).bind fun num_two st₃ =>
    .ok (st₃.node (Factor.Mul num num_two)) st₃
  | .ok (_, '/') =>
    (liftLex (st₁.stream.eat '/')).bind fun _ st₂ =>
    (Parser.parse factorRec st₂).bind fun num_two st₃ =>
    .ok (st₃.node (Factor.Div num num_two)) st₃
  | _ => .ok num st₁

/-- `Factor::parse` from `main.rs`, abstracted over the functions standing
for the nested `state.parse_with_lexer::<Term>` and recursive
`state.parse::<Factor>` rule invocations (supplied one fuel level lower by
`parsers`): the primary value, then the operator suffix. -/
def Factor.parseBody (factorRec : Parser → PRes (Node Factor))
    (termRec : Parser → PRes (Node Term)) (st : Parser) : PRes (Node Factor) :=
  (Factor.parsePrimary termRec st).bind fun num st₁ =>
  Factor.parseOps factorRec num st₁

/-- The trailing `match state.lexer().peek()` of `Term::parse`: an optional
`+`/`-` operator followed by a recursive right `Term` operand. -/
def Term.parseOps (termRec : Parser → PRes (Node Term)) (num : Node Term)
    (st₁ : Parser) : PRes (Node Term) :=
  match st₁.stream.peek with
  | .ok (_, '+') =>
    (liftLex (st₁.stream.eat '+')).bind fun _ st₂ =>
    (Parser.parse termRec st₂).bind fun num_two st₃ =>
    .ok (st₃.node (Term.Add num num_two)) st₃
  | .ok (_, '-') =>
    (liftLex (st₁.stream.eat '-')).bind fun _ st₂ =>
    (Parser.parse termRec st₂).bind fun num_two st₃ =>
    .ok (st₃.node (Term.Sub num num_two)) st₃
  | _ => .ok num st₁

/-- `Term::parse` from `main.rs`, abstracted the same way: a `Factor`
wrapped into `Term::Val`, then the operator suffix. -/
def Term.parseBody (factorRec : Parser → PRes (Node Factor))
    (termRec : Parser → PRes (Node Term)) (st : Parser) : PRes (Node Term) :=
  (Parser.parse factorRec st).bind fun num₀ st₁ =>
  Term.parseOps termRec (num₀.wrap Term.Val) st₁

/-- The mutually recursive grammar rules `Factor::parse`/`Term::parse`,
indexed by fuel: every nested rule invocation runs one fuel level lower.
`Term_parseF_sufficient` shows the `outOfFuel` bottom is unreachable once
the fuel exceeds twice the remaining input. -/
def parsers : Nat → ((Parser → PRes (Node Factor)) × (Parser → PRes (Node Term)))
  | 0 => (fun _ => .outOfFuel, fun _ => .outOfFuel)
  | n+1 =>
    (Factor.parseBody (parsers n).1 (parsers n).2,
     Term.parseBody (parsers n).1 (parsers n).2)

/-- `Factor::parse` at a given fuel. -/
def Factor.parseF (n : Nat) : Parser → PRes (Node Factor) := (parsers n).1

/-- `Term::parse` at a given fuel. -/
def Term.parseF (n : Nat) : Parser → PRes (Node Term) := (parsers n).2

/-- The REPL/tests' use of the core, as in
`parser.parse::<Term>().unwrap().evaluate()`: parse the whole input as a
`Term` through the driver and evaluate the node. -/
def runEval (input : String) (fuel : Nat) : Option Rat :=
  match Parser.parse (Term.parseF fuel) (Parser.new input) with
  | .ok v _ => some (v.value.evaluate)
  | _ => none

/-- Verification helper: does a rule outcome model a Rust panic? -/
def PRes.isPanic : PRes α → Bool
  | .panic => true
  | _ => false

/-- Verification helper: is a rule outcome the artificial fuel bottom? -/
def PRes.isOutOfFuel : PRes α → Bool
  | .outOfFuel => true
  | _ => false

/-- Verification helper: the parse-level error kind of a rule outcome. -/
def PRes.errType : PRes α → Option ParseErrorType
  | .err e _ => some e.ty
  | _ => none

/-- Verification helper: the position-tagged character yielded by the
`(n+1)`-st call to `IndexedCharIter::next`. -/
def iterNth (it : IndexedCharIter) : Nat → Option (CharIndex × Char)
  | 0 => it.next.map Prod.fst
  | n+1 =>
    match it.next with
    | some (_, it') => iterNth it' n
    | none => none

/-- Verification helper: Boolean form of `CharMatcher::is_match`. -/
def matchB (m : Matcher) (c : Char) : Bool :=
  match m.is_match c with
  | .ok _ => true
  | .error _ => false

/-- Verification helper: the characters the `eat_until` loop consumes from
the parent cursor within `n` iterations, paired with the parent's final
state (`none` when the loop would instead stop on an error or exceed `n`). -/
def eatChars (m : Matcher) : Nat → LexerStream → Option (List Char × LexerStream)
  | 0, _ => none
  | n+1, s =>
    match s.advance .AnyChar with
    | (.error _, _) => none
    | (.ok c, s') =>
      match m.is_match c with
      | .ok _ => some ([c], s')
      | .error _ => (eatChars m n s').map fun p => (c :: p.1, p.2)

theorem PRes.bind_ok {r : PRes α} {f : α → Parser → PRes β} {w : β} {s₂ : Parser}
    (h : r.bind f = .ok w s₂) : ∃ v s₁, r = .ok v s₁ ∧ f v s₁ = .ok w s₂ := by
  cases r with
  | ok v s₁ => exact ⟨v, s₁, rfl, h⟩
  | err e s => simp [PRes.bind] at h
  | panic => simp [PRes.bind] at h
  | outOfFuel => simp [PRes.bind] at h

theorem PRes.bind_ne_oof {r : PRes α} {f : α → Parser → PRes β}
    (hr : r ≠ .outOfFuel) (hf : ∀ v s₁, r = .ok v s₁ → f v s₁ ≠ .outOfFuel) :
    r.bind f ≠ .outOfFuel := by
  cases r with
  | ok v s₁ => exact hf v s₁ rfl
  | err e s => simp [PRes.bind]
  | panic => simp [PRes.bind]
  | outOfFuel => exact absurd rfl hr

theorem liftLex_ok {p : Except LexerError α × LexerStream} {v : α} {s₁ : Parser}
    (h : liftLex p = .ok v s₁) : p = (.ok v, s₁.stream) := by
  obtain ⟨r, l⟩ := p
  cases r with
  | ok a =>
    simp only [liftLex, PRes.ok.injEq] at h
    obtain ⟨rfl, rfl⟩ := h
    rfl
  | error e => simp [liftLex] at h

theorem liftLex_ne_oof (p : Except LexerError α × LexerStream) :
    liftLex p ≠ .outOfFuel := by
  obtain ⟨r, l⟩ := p
  cases r <;> simp [liftLex]

theorem Parser.parse_ok {f : Parser → PRes α} {st : Parser} {v : α} {s' : Parser}
    (h : Parser.parse f st = .ok v s') : f st = .ok v s' := by
  cases hf : f st with
  | ok v₀ s₀ =>
    simp only [Parser.parse, hf, PRes.ok.injEq] at h
    obtain ⟨rfl, rfl⟩ := h
    rfl
  | err e s => simp [Parser.parse, hf] at h
  | panic => simp [Parser.parse, hf] at h
  | outOfFuel => simp [Parser.parse, hf] at h

theorem parserParse_ne_oof {f : Parser → PRes α} {st : Parser}
    (h : f st ≠ .outOfFuel) : Parser.parse f st ≠ .outOfFuel := by
  cases hf : f st with
  | ok v₀ s₀ => simp [Parser.parse, hf]
  | err e s => simp [Parser.parse, hf]
  | panic => simp [Parser.parse, hf]
  | outOfFuel => exact absurd hf h

theorem Parser.parse_with_lexer_state {f : Parser → PRes α} {lexer : LexerStream}
    {st : Parser} {v : α} {s' : Parser}
    (h : Parser.parse_with_lexer f lexer st = .ok v s') : s' = st := by
  cases hp : Parser.parse f ⟨lexer⟩ with
  | ok v₀ s₀ =>
    simp only [Parser.parse_with_lexer, hp, PRes.ok.injEq] at h
    exact h.2.symm
  | err e s => simp [Parser.parse_with_lexer, hp] at h
  | panic => simp [Parser.parse_with_lexer, hp] at h
  | outOfFuel => simp [Parser.parse_with_lexer, hp] at h

theorem Parser.parse_with_lexer_ne_oof {f : Parser → PRes α} {lexer : LexerStream}
    {st : Parser} (h : Parser.parse f ⟨lexer⟩ ≠ .outOfFuel) :
    Parser.parse_with_lexer f lexer st ≠ .outOfFuel := by
  cases hp : Parser.parse f ⟨lexer⟩ with
  | ok v₀ s₀ => simp [Parser.parse_with_lexer, hp]
  | err e s => simp [Parser.parse_with_lexer, hp]
  | panic => simp [Parser.parse_with_lexer, hp]
  | outOfFuel => exact absurd hp h

theorem numberLoopF_ok_rem :
    ∀ {n : Nat} {st : Parser} {chars : List Char} {seen_dot : Bool}
      {chars' : List Char} {st' : Parser},
      numberLoopF n st chars seen_dot = some (.ok chars' st') →
      st'.stream.rem ≤ st.stream.rem := by
  intro n
  induction n with
  | zero => intro st chars seen_dot chars' st' h; simp [numberLoopF] at h
  | succ n ih =>
    intro st chars seen_dot chars' st' h
    simp only [numberLoopF] at h
    split at h
    · rename_i chars₁ seen₁ st₁ hs
      have h2 := numberDotStep_ok_rem hs
      split at h
      · rename_i c l₂ ha
        have h1 := LexerStream.advance_ok_rem ha
        have h3 : st'.stream.rem ≤ l₂.rem := ih h
        omega
      · rename_i e l₂ ha
        have hl : l₂ = st₁.stream := LexerStream.advance_error_eq ha
        simp only [Option.some.injEq, PRes.ok.injEq] at h
        obtain ⟨-, rfl⟩ := h
        rw [show (⟨l₂⟩ : Parser).stream = l₂ from rfl, hl]
        exact h2
    · simp at h
    · simp at h
    · simp at h

theorem numberDotStep_ne_oof (st : Parser) (chars : List Char) (seen_dot : Bool) :
    numberDotStep st chars seen_dot ≠ .outOfFuel := by
  unfold numberDotStep
  split
  · split
    · simp
    · exact PRes.bind_ne_oof (liftLex_ne_oof _) (by intro v s₁ h; simp)
  · simp

theorem numberLoopF_ne_oof :
    ∀ {n : Nat} {st : Parser} {chars : List Char} {seen_dot : Bool},
      numberLoopF n st chars seen_dot ≠ some .outOfFuel := by
  intro n
  induction n with
  | zero => intro st chars seen_dot; simp [numberLoopF]
  | succ n ih =>
    intro st chars seen_dot
    simp only [numberLoopF]
    split
    · split
      · exact ih
      · simp
    · simp
    · simp
    · rename_i hs
      exact absurd hs (numberDotStep_ne_oof _ _ _)

theorem numberLoop_spec (st : Parser) (chars : List Char) (seen_dot : Bool) :
    numberLoopF (st.stream.rem + 1) st chars seen_dot =
      some (numberLoop st chars seen_dot) := by
  unfold numberLoop
  split
  · rename_i r h
    exact h
  · rename_i h
    exact absurd (numberLoopF_isSome _ st chars seen_dot (Nat.lt_succ_self _))
      (by rw [h]; simp)

theorem numberLoop_ok_rem {st : Parser} {chars : List Char} {seen_dot : Bool}
    {chars' : List Char} {st' : Parser}
    (h : numberLoop st chars seen_dot = .ok chars' st') :
    st'.stream.rem ≤ st.stream.rem := by
  have := numberLoop_spec st chars seen_dot
  rw [h] at this
  exact numberLoopF_ok_rem this

theorem numberLoop_ne_oof (st : Parser) (chars : List Char) (seen_dot : Bool) :
    numberLoop st chars seen_dot ≠ .outOfFuel := by
  intro hc
  have := numberLoop_spec st chars seen_dot
  rw [hc] at this
  exact numberLoopF_ne_oof this

theorem Number.parse_ok_rem {st : Parser} {v : Node Number} {st' : Parser}
    (h : Number.parse st = .ok v st') : st'.stream.rem ≤ st.stream.rem := by
  unfold Number.parse at h
  obtain ⟨negate, st₁, hneg, h⟩ := PRes.bind_ok h
  have h1 : st₁.stream.rem ≤ st.stream.rem := by
    split at hneg
    · obtain ⟨u, s₁, hl, hok⟩ := PRes.bind_ok hneg
      have hev := liftLex_ok hl
      simp only [PRes.ok.injEq] at hok
      obtain ⟨-, rfl⟩ := hok
      exact Nat.le_of_lt (LexerStream.advance_ok_rem hev)
    · simp only [PRes.ok.injEq] at hneg
      obtain ⟨-, rfl⟩ := hneg
      exact Nat.le_refl _
  obtain ⟨chars, st₂, hloop, h⟩ := PRes.bind_ok h
  have h2 := numberLoop_ok_rem hloop
  split at h
  · simp at h
  · split at h
    · simp at h
    · simp only [PRes.ok.injEq] at h
      obtain ⟨-, rfl⟩ := h
      omega

theorem numberParse_ne_oof (st : Parser) : Number.parse st ≠ .outOfFuel := by
  unfold Number.parse
  refine PRes.bind_ne_oof ?_ ?_
  · split
    · exact PRes.bind_ne_oof (liftLex_ne_oof _) (by intro v s₁ h; simp)
    · simp
  · intro negate st₁ hneg
    refine PRes.bind_ne_oof (numberLoop_ne_oof _ _ _) ?_
    intro chars st₂ hloop
    split
    · simp
    · split
      · simp
      · simp

theorem eatUntilLoopF_ok_rem :
    ∀ {n : Nat} {m : Matcher} {s s' : LexerStream},
      eatUntilLoopF m n s = some (.ok (), s') → s'.rem < s.rem := by
  intro n
  induction n with
  | zero => intro m s s' h; simp [eatUntilLoopF] at h
  | succ n ih =>
    intro m s s' h
    simp only [eatUntilLoopF] at h
    split at h
    · simp at h
    · rename_i c s₁ ha
      have h1 := LexerStream.advance_ok_rem ha
      split at h
      · simp only [Option.some.injEq, Prod.mk.injEq] at h
        obtain ⟨-, rfl⟩ := h
        exact h1
      · have h3 := ih h
        omega

theorem LexerStream.eat_until_ok {s : LexerStream} {m : Matcher}
    {sub s' : LexerStream} (h : s.eat_until m = (.ok sub, s')) :
    sub = { s with ty := .UntilEnd m } ∧
      eatUntilLoopF m (s.rem + 1) s = some (.ok (), s') := by
  unfold LexerStream.eat_until at h
  split at h
  · rename_i u s₁ h₁
    simp only [Prod.mk.injEq, Except.ok.injEq] at h
    obtain ⟨rfl, rfl⟩ := h
    exact ⟨rfl, h₁⟩
  · rename_i e s₁ h₁
    simp at h
  · rename_i h₁
    exact absurd (eatUntilLoopF_isSome m (s.rem + 1) s (Nat.lt_succ_self _))
      (by rw [h₁]; simp)

theorem Factor.parsePrimary_ok_rem {termRec : Parser → PRes (Node Term)}
    {st : Parser} {v : Node Factor} {st' : Parser}
    (h : Factor.parsePrimary termRec st = .ok v st') :
    st'.stream.rem ≤ st.stream.rem := by
  unfold Factor.parsePrimary at h
  split at h
  · obtain ⟨u, s₁, hl, h⟩ := PRes.bind_ok h
    have hev := liftLex_ok hl
    obtain ⟨sub, s₂, hl2, h⟩ := PRes.bind_ok h
    have hev2 := liftLex_ok hl2
    obtain ⟨t, s₃, hpw, h⟩ := PRes.bind_ok h
    have hs3 : s₃ = s₂ := Parser.parse_with_lexer_state hpw
    simp only [PRes.ok.injEq] at h
    obtain ⟨-, rfl⟩ := h
    subst hs3
    have r1 := LexerStream.advance_ok_rem hev
    have r2 := eatUntilLoopF_ok_rem (LexerStream.eat_until_ok hev2).2
    omega
  · obtain ⟨num, s₁, hn, h⟩ := PRes.bind_ok h
    have hN := Number.parse_ok_rem (Parser.parse_ok hn)
    simp only [PRes.ok.injEq] at h
    obtain ⟨-, rfl⟩ := h
    exact hN

theorem factorOps_ok_rem {factorRec : Parser → PRes (Node Factor)}
    (hrec : ∀ {st : Parser} {v : Node Factor} {st' : Parser},
      factorRec st = .ok v st' → st'.stream.rem ≤ st.stream.rem)
    {num : Node Factor} {st₁ : Parser} {v : Node Factor} {st' : Parser}
    (h : Factor.parseOps factorRec num st₁ = .ok v st') :
    st'.stream.rem ≤ st₁.stream.rem := by
  unfold Factor.parseOps at h
  split at h
  · obtain ⟨u, s₂, hl, h⟩ := PRes.bind_ok h
    have hev := liftLex_ok hl
    obtain ⟨n2, s₃, hp, h⟩ := PRes.bind_ok h
    have hF := hrec (Parser.parse_ok hp)
    simp only [PRes.ok.injEq] at h
    obtain ⟨-, rfl⟩ := h
    have r1 := LexerStream.advance_ok_rem hev
    omega
  · obtain ⟨u, s₂, hl, h⟩ := PRes.bind_ok h
    have hev := liftLex_ok hl
    obtain ⟨n2, s₃, hp, h⟩ := PRes.bind_ok h
    have hF := hrec (Parser.parse_ok hp)
    simp only [PRes.ok.injEq] at h
    obtain ⟨-, rfl⟩ := h
    have r1 := LexerStream.advance_ok_rem hev
    omega
  · simp only [PRes.ok.injEq] at h
    obtain ⟨-, rfl⟩ := h
    exact Nat.le_refl _

theorem termOps_ok_rem {termRec : Parser → PRes (Node Term)}
    (hrec : ∀ {st : Parser} {v : Node Term} {st' : Parser},
      termRec st = .ok v st' → st'.stream.rem ≤ st.stream.rem)
    {num : Node Term} {st₁ : Parser} {v : Node Term} {st' : Parser}
    (h : Term.parseOps termRec num st₁ = .ok v st') :
    st'.stream.rem ≤ st₁.stream.rem := by
  unfold Term.parseOps at h
  split at h
  · obtain ⟨u, s₂, hl, h⟩ := PRes.bind_ok h
    have hev := liftLex_ok hl
    obtain ⟨n2, s₃, hp, h⟩ := PRes.bind_ok h
    have hT := hrec (Parser.parse_ok hp)
    simp only [PRes.ok.injEq] at h
    obtain ⟨-, rfl⟩ := h
    have r1 := LexerStream.advance_ok_rem hev
    omega
  · obtain ⟨u, s₂, hl, h⟩ := PRes.bind_ok h
    have hev := liftLex_ok hl
    obtain ⟨n2, s₃, hp, h⟩ := PRes.bind_ok h
    have hT := hrec (Parser.parse_ok hp)
    simp only [PRes.ok.injEq] at h
    obtain ⟨-, rfl⟩ := h
    have r1 := LexerStream.advance_ok_rem hev
    omega
  · simp only [PRes.ok.injEq] at h
    obtain ⟨-, rfl⟩ := h
    exact Nat.le_refl _

theorem parsers_mono (n : Nat) :
    (∀ {st : Parser} {v : Node Factor} {st' : Parser},
        Factor.parseF n st = .ok v st' → st'.stream.rem ≤ st.stream.rem) ∧
    (∀ {st : Parser} {v : Node Term} {st' : Parser},
        Term.parseF n st = .ok v st' → st'.stream.rem ≤ st.stream.rem) := by
  induction n with
  | zero =>
    constructor
    · intro st v st' h
      simp [Factor.parseF, parsers] at h
    · intro st v st' h
      simp [Term.parseF, parsers] at h
  | succ n ih =>
    obtain ⟨ihF, ihT⟩ := ih
    constructor
    · intro st v st' h
      simp only [Factor.parseF, parsers] at h
      unfold Factor.parseBody at h
      obtain ⟨num, st₁, hprim, h⟩ := PRes.bind_ok h
      have h₁ : st₁.stream.rem ≤ st.stream.rem := Factor.parsePrimary_ok_rem hprim
      have h₂ : st'.stream.rem ≤ st₁.stream.rem :=
        factorOps_ok_rem (fun hr => ihF hr) h
      omega
    · intro st v st' h
      simp only [Term.parseF, parsers] at h
      unfold Term.parseBody at h
      obtain ⟨num₀, st₁, hf, h⟩ := PRes.bind_ok h
      have h₁ : st₁.stream.rem ≤ st.stream.rem := ihF (Parser.parse_ok hf)
      have h₂ : st'.stream.rem ≤ st₁.stream.rem :=
        termOps_ok_rem (fun hr => ihT hr) h
      omega

theorem parsers_sufficient (n : Nat) :
    (∀ st : Parser, 2 * st.stream.rem + 1 ≤ n → Factor.parseF n st ≠ .outOfFuel) ∧
    (∀ st : Parser, 2 * st.stream.rem + 2 ≤ n → Term.parseF n st ≠ .outOfFuel) := by
  induction n with
  | zero => constructor <;> intro st h <;> omega
  | succ n ih =>
    obtain ⟨ihF, ihT⟩ := ih
    constructor
    · intro st hfuel
      simp only [Factor.parseF, parsers]
      unfold Factor.parseBody
      refine PRes.bind_ne_oof ?_ ?_
      · unfold Factor.parsePrimary
        split
        · refine PRes.bind_ne_oof (liftLex_ne_oof _) ?_
          intro u s₁ hl
          have hev := liftLex_ok hl
          have r1 := LexerStream.advance_ok_rem hev
          refine PRes.bind_ne_oof (liftLex_ne_oof _) ?_
          intro sub s₂ hl2
          have hev2 := liftLex_ok hl2
          obtain ⟨hsub, hloop⟩ := LexerStream.eat_until_ok hev2
          refine PRes.bind_ne_oof ?_ ?_
          · refine Parser.parse_with_lexer_ne_oof (parserParse_ne_oof ?_)
            have hr : (⟨sub⟩ : Parser).stream.rem = s₁.stream.rem := by
              subst hsub; rfl
            exact ihT ⟨sub⟩ (by omega)
          · intro t s₃ hpw
            simp
        · refine PRes.bind_ne_oof (parserParse_ne_oof (numberParse_ne_oof _)) ?_
          intro v s₁ h
          simp
      · intro num st₁ hprim
        have h₁ : st₁.stream.rem ≤ st.stream.rem := Factor.parsePrimary_ok_rem hprim
        unfold Factor.parseOps
        split
        · refine PRes.bind_ne_oof (liftLex_ne_oof _) ?_
          intro u s₂ hl
          have hev := liftLex_ok hl
          have r1 := LexerStream.advance_ok_rem hev
          refine PRes.bind_ne_oof (parserParse_ne_oof (ihF s₂ (by omega))) ?_
          intro n2 s₃ hp
          simp
        · refine PRes.bind_ne_oof (liftLex_ne_oof _) ?_
          intro u s₂ hl
          have hev := liftLex_ok hl
          have r1 := LexerStream.advance_ok_rem hev
          refine PRes.bind_ne_oof (parserParse_ne_oof (ihF s₂ (by omega))) ?_
          intro n2 s₃ hp
          simp
        · simp
    · intro st hfuel
      simp only [Term.parseF, parsers]
      unfold Term.parseBody
      refine PRes.bind_ne_oof (parserParse_ne_oof (ihF st (by omega))) ?_
      intro num₀ st₁ hf
      have h₁ : st₁.stream.rem ≤ st.stream.rem := (parsers_mono n).1 (Parser.parse_ok hf)
      unfold Term.parseOps
      split
      · refine PRes.bind_ne_oof (liftLex_ne_oof _) ?_
        intro u s₂ hl
        have hev := liftLex_ok hl
        have r1 := LexerStream.advance_ok_rem hev
        refine PRes.bind_ne_oof (parserParse_ne_oof (ihT s₂ (by omega))) ?_
        intro n2 s₃ hp
        simp
      · refine PRes.bind_ne_oof (liftLex_ne_oof _) ?_
        intro u s₂ hl
        have hev := liftLex_ok hl
        have r1 := LexerStream.advance_ok_rem hev
        refine PRes.bind_ne_oof (parserParse_ne_oof (ihT s₂ (by omega))) ?_
        intro n2 s₃ hp
        simp
      · simp

theorem LexerStream.new_rem (cs : List Char) :
    (LexerStream.new (IndexedCharIter.new cs)).rem ≤ cs.length := by
  unfold LexerStream.new
  cases hn : (IndexedCharIter.new cs).next with
  | none => simp [LexerStream.rem, IndexedCharIter.new]
  | some p =>
    obtain ⟨⟨i, c⟩, it'⟩ := p
    have := IndexedCharIter.next_length hn
    simp only [LexerStream.rem]
    simp only [IndexedCharIter.new] at this
    omega

theorem nextNonWs_not_ws {l : List Char} {c : Char} {rest : List Char}
    (h : nextNonWs l = some (c, rest)) : c.isWhitespace = false := by
  induction l with
  | nil => simp [nextNonWs] at h
  | cons a l ih =>
    by_cases hw : a.isWhitespace
    · simp only [nextNonWs, hw, if_pos] at h
      exact ih h
    · simp only [nextNonWs, hw, if_neg, Option.some.injEq, Prod.mk.injEq] at h
      obtain ⟨rfl, -⟩ := h
      simpa using hw

/-- Verification helper: the success condition of the `eat_until` loop on
the parent cursor, phrased over the consumed-character trace: the final
state is the given one, something was consumed, only the final consumed
character matches the boundary. -/
def boundaryTrace (m : Matcher) (o : Option (List Char × LexerStream))
    (s' : LexerStream) : Bool :=
  match o with
  | some (cs, s₂) =>
    s₂ == s' && !cs.isEmpty && cs.dropLast.all (fun c => !matchB m c) &&
      (cs.getLast?.map (matchB m) == some true)
  | none => false

theorem eatUntilLoopF_trace :
    ∀ {n : Nat} {m : Matcher} {s s' : LexerStream},
      eatUntilLoopF m n s = some (.ok (), s') →
      ∃ cs : List Char, eatChars m n s = some (cs, s') ∧ cs ≠ [] ∧
        cs.dropLast.all (fun c => !matchB m c) = true ∧
        cs.getLast?.map (matchB m) = some true := by
  intro n
  induction n with
  | zero => intro m s s' h; simp [eatUntilLoopF] at h
  | succ n ih =>
    intro m s s' h
    simp only [eatUntilLoopF] at h
    split at h
    · simp at h
    · rename_i c s₁ ha
      cases hm : m.is_match c with
      | ok u =>
        simp only [hm, Option.some.injEq, Prod.mk.injEq] at h
        obtain ⟨-, rfl⟩ := h
        refine ⟨[c], ?_, by simp, by simp, ?_⟩
        · simp [eatChars, ha, hm]
        · simp [List.getLast?, matchB, hm]
      | error msg =>
        simp only [hm] at h
        obtain ⟨cs, hcs, hne, hall, hlast⟩ := ih h
        refine ⟨c :: cs, ?_, by simp, ?_, ?_⟩
        · simp [eatChars, ha, hm, hcs]
        · cases cs with
          | nil => exact absurd rfl hne
          | cons b l =>
            simp only [List.dropLast, List.all_cons, Bool.and_eq_true] at hall ⊢
            exact ⟨by simp [matchB, hm], hall⟩
        · cases cs with
          | nil => exact absurd rfl hne
          | cons b l => simpa using hlast

attribute [local semireducible] Rat.mul Rat.add Rat.sub Rat.inv

/-- C1: evaluating `"1+2*5"` as a `Term` yields `11`, but `"2/3*9"` yields
`2/27` — the grammar is right-recursive, so `Factor` groups it as
`2/(3*9)` — not the `6.0` the claim (and the repository's own `long_expr`
test) states; `2/27 ≠ 6`. -/
theorem C1_precedence_examples :
    runEval "1+2*5" 20 = some 11 ∧
    runEval "2/3*9" 20 = some (2 / 27) ∧ (2 / 27 : Rat) ≠ 6 :=
  ⟨by decide, by decide, by decide⟩

/-- C2 counterexample: on input `"ab)c"`, `eat_until(SpecificChar ')')`
succeeds (returning the bounded clone), but the parent cursor's lookahead
afterwards is `'c'` — the character AFTER the boundary — not the boundary
character `')'` the claim states. -/
theorem C2_cex :
    ((LexerStream.new (IndexedCharIter.new "ab)c".toList)).eat_until
        (.SpecificChar ')')).1 =
      .ok { LexerStream.new (IndexedCharIter.new "ab)c".toList) with
              ty := .UntilEnd (.SpecificChar ')') } ∧
    ((LexerStream.new (IndexedCharIter.new "ab)c".toList)).eat_until
        (.SpecificChar ')')).2.peekSt = .Present ⟨0, 3⟩ 'c' ∧
    ('c' ≠ ')') :=
  ⟨by decide, by decide, by decide⟩

/-- C2 (amended): `eat_until` returns the bounded clone of the cursor state
at the moment of extraction (same source, lookahead and span); on success
the parent has consumed a nonempty run of characters of which exactly the
last matches the boundary matcher — the boundary character is consumed,
leaving the parent positioned immediately past it. -/
theorem C2_amended_eat_until {s : LexerStream} {m : Matcher}
    {sub s' : LexerStream} (h : s.eat_until m = (.ok sub, s')) :
    sub = { s with ty := .UntilEnd m } ∧
      boundaryTrace m (eatChars m (s.rem + 1) s) s' = true := by
  obtain ⟨hsub, hloop⟩ := LexerStream.eat_until_ok h
  refine ⟨hsub, ?_⟩
  obtain ⟨cs, hcs, hne, hall, hlast⟩ := eatUntilLoopF_trace hloop
  simp [boundaryTrace, hcs, hne, hall, hlast]

theorem C2_w :
    ({ LexerStream.new (IndexedCharIter.new "ab)c".toList) with
        ty := LexerType.UntilEnd (.SpecificChar ')') } =
      { LexerStream.new (IndexedCharIter.new "ab)c".toList) with
          ty := LexerType.UntilEnd (.SpecificChar ')') }) ∧
    boundaryTrace (.SpecificChar ')')
        (eatChars (.SpecificChar ')')
          ((LexerStream.new (IndexedCharIter.new "ab)c".toList)).rem + 1)
          (LexerStream.new (IndexedCharIter.new "ab)c".toList)))
        (((LexerStream.new (IndexedCharIter.new "ab)c".toList)).eat_until
            (.SpecificChar ')')).2) = true :=
  @C2_amended_eat_until (LexerStream.new (IndexedCharIter.new "ab)c".toList))
    (.SpecificChar ')')
    { LexerStream.new (IndexedCharIter.new "ab)c".toList) with
        ty := LexerType.UntilEnd (.SpecificChar ')') }
    (((LexerStream.new (IndexedCharIter.new "ab)c".toList)).eat_until
        (.SpecificChar ')')).2)
    (by decide)

/-- C3: the `Number` grammar fails with `EmptyNumberLiteral` when nothing
was accumulated and `ExtraDotInNumberLiteral` on a second dot; but on input
`"."` (one dot, zero digits) neither error fires and
`chars.parse::<f64>().unwrap()` panics on `chars = "."` instead of
returning the claimed floating-point value. -/
theorem C3_number_literal :
    (Number.parse (Parser.new "")).errType = some .EmptyNumberLiteral ∧
    (Number.parse (Parser.new "1.2.3")).errType = some .ExtraDotInNumberLiteral ∧
    Number.parse (Parser.new ".") = .panic :=
  ⟨by decide, by decide, by decide⟩

/-- C4: parsing the input `"-."` as `Term` drives `Number::parse` to
`chars.parse::<f64>().unwrap()` with `chars = "."`, which panics — contrary
to the claim that every core failure is a typed error value. -/
theorem C4_core_panics :
    (Parser.parse (Term.parseF 8) (Parser.new "-.")).isPanic = true := by
  decide

/-- C5 counterexample: over input `"12"` the first consumed character sits
at position `(0,0)` (the lookahead), yet the span after consuming it is
`((0,1),(0,2))`: `start` is not the position of the first consumed
character, and `end` is not the position immediately after it. -/
theorem C5_cex :
    (Parser.new "12").stream.peekSt = .Present ⟨0, 0⟩ '1' ∧
    ((Parser.new "12").stream.advance .AnyChar).1 = .ok '1' ∧
    ((Parser.new "12").stream.advance .AnyChar).2.span = ⟨⟨0, 1⟩, ⟨0, 2⟩⟩ ∧
    (Span.mk ⟨0, 1⟩ ⟨0, 2⟩ ≠ Span.mk ⟨0, 0⟩ ⟨0, 1⟩) :=
  ⟨by decide, by decide, by decide, by decide⟩

/-- C5 (amended): both span endpoints track the source iterator's index —
one past the most recently drawn lookahead character: at creation
`start = end =` that index (so `start = end` while nothing is consumed); a
successful advance preserves `start` and sets `end` to the iterator's index
after the refill; a failed advance leaves the cursor unchanged. -/
theorem C5_amended_span :
    (∀ it : IndexedCharIter,
        (LexerStream.new it).start = (LexerStream.new it).chars.index ∧
        (LexerStream.new it).end_ = (LexerStream.new it).chars.index) ∧
    (∀ (s : LexerStream) (m : Matcher) (c : Char) (s' : LexerStream),
        s.advance m = (.ok c, s') →
        s'.start = s.start ∧ s'.end_ = s'.chars.index) ∧
    (∀ (s : LexerStream) (m : Matcher) (e : LexerError) (s' : LexerStream),
        s.advance m = (.error e, s') → s' = s) := by
  refine ⟨?_, ?_, ?_⟩
  · intro it
    unfold LexerStream.new
    split <;> exact ⟨rfl, rfl⟩
  · intro s m c s' h
    cases hp : s.peekSt with
    | Eof i => simp [LexerStream.advance, LexerStream.peek, hp] at h
    | Present idx ch =>
      simp only [LexerStream.advance, LexerStream.peek, hp] at h
      split at h
      · simp at h
      · split at h
        · simp at h
        · split at h
          · simp only [Prod.mk.injEq, Except.ok.injEq] at h
            obtain ⟨-, rfl⟩ := h
            exact ⟨rfl, rfl⟩
          · simp only [Prod.mk.injEq, Except.ok.injEq] at h
            obtain ⟨-, rfl⟩ := h
            exact ⟨rfl, rfl⟩
  · intro s m e s' h
    exact LexerStream.advance_error_eq h

theorem C5_w :
    (LexerStream.new (IndexedCharIter.new "7".toList)).start =
      (LexerStream.new (IndexedCharIter.new "7".toList)).chars.index ∧
    ((Parser.new "12").stream.advance .AnyChar).2.start =
      (Parser.new "12").stream.start ∧
    ((Parser.new "12").stream.advance .AnyChar).2.end_ =
      ((Parser.new "12").stream.advance .AnyChar).2.chars.index :=
  ⟨(C5_amended_span.1 (IndexedCharIter.new "7".toList)).1,
    C5_amended_span.2.1 (Parser.new "12").stream .AnyChar '1'
      ((Parser.new "12").stream.advance .AnyChar).2 (by decide)⟩

/-- C6: when a grammar rule fails from a state (having consumed any number
of characters, `k > 0` included), the driver's `parse` wrapper restores the
exact pre-rule cursor state and propagates the rule's error. -/
theorem C6_backtracking {α : Type} (f : Parser → PRes α) (st : Parser)
    (e : ParseError) (s₁ : Parser) (h : f st = .err e s₁) :
    Parser.parse f st = .err e st := by
  simp [Parser.parse, h]

theorem C6_w :
    Parser.parse Number.parse (Parser.new "-x") =
      .err ⟨Span.new ⟨0, 1⟩ ⟨0, 2⟩, .EmptyNumberLiteral⟩ (Parser.new "-x") :=
  C6_backtracking Number.parse (Parser.new "-x")
    ⟨Span.new ⟨0, 1⟩ ⟨0, 2⟩, .EmptyNumberLiteral⟩
    ⟨⟨⟨[], ⟨0, 2⟩, .Skip⟩, .Present ⟨0, 1⟩ 'x', .UntilEof, ⟨0, 1⟩, ⟨0, 2⟩⟩⟩
    (by decide)

/-- C7: with a `Present` lookahead: if the cursor is bounded and the bound
matches the lookahead, `advance` fails with EOF and leaves the cursor
unchanged; otherwise if the matcher rejects the lookahead it fails with
`IncorrectChar(got, position, expected)` unchanged; otherwise it consumes
the character, refills the lookahead (transitioning to EOF at the advanced
position when the source is exhausted), sets the span's `end` to the new
iterator index, and returns the character. -/
theorem C7_advance_cases (s : LexerStream) (m : Matcher) (idx : CharIndex)
    (c : Char) (hp : s.peekSt = .Present idx c) :
    ((∃ comp, s.ty = .UntilEnd comp ∧ comp.is_match c = .ok ()) →
        s.advance m = (.error (LexerError.eof idx), s)) ∧
    (∀ msg, (∀ comp, s.ty = .UntilEnd comp → comp.is_match c ≠ .ok ()) →
        m.is_match c = .error msg →
        s.advance m = (.error (LexerError.incorrect_char (some c) idx msg), s)) ∧
    ((∀ comp, s.ty = .UntilEnd comp → comp.is_match c ≠ .ok ()) →
        m.is_match c = .ok () →
        s.advance m = (.ok c,
          match s.chars.next with
          | some ((i2, c2), it') =>
            { s with peekSt := .Present i2 c2, chars := it', end_ := it'.index }
          | none =>
            { s with peekSt := .Eof (idx.advance_num 1), end_ := s.chars.index })) := by
  refine ⟨?_, ?_, ?_⟩
  · rintro ⟨comp, hty, hcm⟩
    simp [LexerStream.advance, LexerStream.peek, hp, hty, hcm]
  · intro msg hbound hm
    cases hty : s.ty with
    | UntilEof =>
      simp [LexerStream.advance, LexerStream.peek, hp, hty, hm]
    | UntilEnd comp =>
      cases hcm : comp.is_match c with
      | ok u =>
        cases u
        exact absurd hcm (hbound comp hty)
      | error msg2 =>
        simp [LexerStream.advance, LexerStream.peek, hp, hty, hcm, hm]
  · intro hbound hm
    cases hty : s.ty with
    | UntilEof =>
      simp only [LexerStream.advance, LexerStream.peek, hp, hty, hm]
      cases hn : s.chars.next with
      | some p =>
        obtain ⟨⟨i2, c2⟩, it'⟩ := p
        simp [hn]
      | none => simp [hn]
    | UntilEnd comp =>
      cases hcm : comp.is_match c with
      | ok u =>
        cases u
        exact absurd hcm (hbound comp hty)
      | error m2 =>
        simp only [LexerStream.advance, LexerStream.peek, hp, hty, hcm, hm]
        cases hn : s.chars.next with
        | some p =>
          obtain ⟨⟨i2, c2⟩, it'⟩ := p
          simp [hn]
        | none => simp [hn]

theorem C7_w :
    (LexerStream.new (IndexedCharIter.new "ab".toList)).advance .AnyChar =
      (.ok 'a',
        ⟨⟨[], ⟨0, 2⟩, .Skip⟩, .Present ⟨0, 1⟩ 'b', .UntilEof, ⟨0, 1⟩, ⟨0, 2⟩⟩) :=
  ((C7_advance_cases (LexerStream.new (IndexedCharIter.new "ab".toList)) .AnyChar
        ⟨0, 0⟩ 'a' (by decide)).2.2
      (fun comp hcomp => nomatch hcomp) rfl).trans (by decide)

/-- C8: `parse_with_lexer` runs the rule against the installed cursor and
afterwards the driver's active cursor is again the previously active one —
on success and on failure alike — with the nested parse's outcome returned
unchanged. -/
theorem C8_cursor_swap {α : Type} (f : Parser → PRes α) (lexer : LexerStream)
    (st : Parser) :
    (∀ (v : α) (s' : Parser), Parser.parse f ⟨lexer⟩ = .ok v s' →
        Parser.parse_with_lexer f lexer st = .ok v st) ∧
    (∀ (e : ParseError) (s' : Parser), Parser.parse f ⟨lexer⟩ = .err e s' →
        Parser.parse_with_lexer f lexer st = .err e st) := by
  constructor
  · intro v s' h
    simp [Parser.parse_with_lexer, h]
  · intro e s' h
    simp [Parser.parse_with_lexer, h]

theorem C8_w :
    Parser.parse_with_lexer Number.parse
        (LexerStream.new (IndexedCharIter.new "7".toList)) (Parser.new "z") =
      .ok (Node.new ⟨7⟩ (Span.new ⟨0, 1⟩ ⟨0, 1⟩)) (Parser.new "z") :=
  (C8_cursor_swap Number.parse (LexerStream.new (IndexedCharIter.new "7".toList))
      (Parser.new "z")).1 (Node.new ⟨7⟩ (Span.new ⟨0, 1⟩ ⟨0, 1⟩))
    ⟨⟨⟨[], ⟨0, 1⟩, .Skip⟩, .Eof ⟨0, 1⟩, .UntilEof, ⟨0, 1⟩, ⟨0, 1⟩⟩⟩ (by decide)

/-- C9: parsing any finite input as `Term` terminates — with fuel
`2·|input| + 4` (two levels per remaining character) the fueled grammar
never reaches the artificial `outOfFuel` bottom, because every recursive
rule invocation happens strictly later in the input. -/
theorem C9_parsing_terminates (s : String) :
    (Parser.parse (Term.parseF (2 * s.toList.length + 4))
        (Parser.new s)).isOutOfFuel = false := by
  have hne : Parser.parse (Term.parseF (2 * s.toList.length + 4)) (Parser.new s) ≠
      .outOfFuel := by
    refine parserParse_ne_oof ?_
    refine (parsers_sufficient (2 * s.toList.length + 4)).2 (Parser.new s) ?_
    have h := LexerStream.new_rem s.toList
    show 2 * (LexerStream.new (IndexedCharIter.new s.toList)).rem + 2 ≤ _
    omega
  cases hr : Parser.parse (Term.parseF (2 * s.toList.length + 4)) (Parser.new s) with
  | ok v s' => rfl
  | err e s' => rfl
  | panic => rfl
  | outOfFuel => exact absurd hr hne

/-- C10: in whitespace-skipping mode skipped characters never advance the
recorded position — every yielded character is tagged with the index as
advanced only by previously yielded characters (which are never
whitespace); concretely, in `"a b"` the `'b'` is reported at column 1
although its source-text column is 2. -/
theorem C10_ws_positions :
    (∀ (it : IndexedCharIter) (i : CharIndex) (c : Char) (it' : IndexedCharIter),
        it.whitespace = .Skip → it.next = some ((i, c), it') →
        i = it.index ∧ it'.index = it.index.advance c ∧ c.isWhitespace = false) ∧
    (iterNth (IndexedCharIter.new "a b".toList) 1 = some (⟨0, 1⟩, 'b') ∧
      (⟨0, 1⟩ : CharIndex) ≠ ⟨0, 2⟩) := by
  constructor
  · intro it i c it' hw hn
    unfold IndexedCharIter.next at hn
    rw [hw] at hn
    simp only at hn
    cases hs : nextNonWs it.chars with
    | none => rw [hs] at hn; simp at hn
    | some p =>
      obtain ⟨c₀, rest⟩ := p
      rw [hs] at hn
      simp only [Option.some.injEq, Prod.mk.injEq] at hn
      obtain ⟨⟨rfl, rfl⟩, rfl⟩ := hn
      exact ⟨rfl, rfl, nextNonWs_not_ws hs⟩
  · exact ⟨by decide, by decide⟩

theorem C10_w :
    (⟨0, 0⟩ : CharIndex) = (IndexedCharIter.new " x".toList).index ∧
    (⟨[], ⟨0, 1⟩, .Skip⟩ : IndexedCharIter).index =
      (IndexedCharIter.new " x".toList).index.advance 'x' ∧
    'x'.isWhitespace = false :=
  C10_ws_positions.1 (IndexedCharIter.new " x".toList) ⟨0, 0⟩ 'x'
    ⟨[], ⟨0, 1⟩, .Skip⟩ rfl (by decide)
